import Mathlib

/-!
# Verification of the Realize consensus/synchronization core

Shallow embedding of the consensus core of the `realize` repository:

* `crate/realize-core/src/consensus/movedirs.rs` — the per-file sync
  protocol (`move_file`, `copy_file_range`, `rsync_file_range`,
  `hash_file`, `check_hashes_and_delete`) embedded as pure functions
  over an oracle `MoveWorld` describing the responses of the peer RPC
  endpoints, producing a result and a trace of RPC calls and progress
  events.  The two arms of the `tokio::join!` (copy-missing and
  source-hash) are sequenced copy-then-hash in the trace; none of the
  verified properties depends on their interleaving.
* `crate/realize-core/src/consensus/churten.rs` — the scheduler's
  completion handling (`background_job` body) embedded as a pure
  function from a completed job result and cancellation state to the
  emitted events.
* `crate/realize-storage/src/arena/indexed_store.rs` — `Reader::metadata`
  and the `rsync` helper.

The supporting data types `ByteRange`, `ByteRanges` and `RangedHash`
live in the `realize_types` crate, whose source is not part of this
development; their operations are modelled from the specification's
data-model section (canonical disjoint ascending ranges; ordered
range→hash mapping with `add` / `is_complete` / `diff`).
-/

namespace Realize

/-- Modelled from the spec: a `Hash` is a fixed-width digest with a
distinguished `zero` value (`realize_types::Hash`, not under `src/`).
Digests are tokens; only equality and the `zero` value matter here. -/
abbrev Hash := Nat

/-- The distinguished zero hash, reported by a remote for a byte range
beyond end-of-file. -/
def Hash.zero : Hash := 0

/-- Modelled from the spec: `realize_types::ByteRange`, a half-open
interval `[start, stop)` of byte offsets (the Rust field `end` is
renamed `stop`; Lean reserves `end`). -/
structure ByteRange where
  start : Nat
  stop : Nat
  deriving DecidableEq, Repr

namespace ByteRange

/-- Number of bytes in the range (`end - start`). -/
def bytecount (r : ByteRange) : Nat := r.stop - r.start

/-- Whether the range contains no byte. -/
def isEmpty (r : ByteRange) : Bool := r.stop ≤ r.start

/-- Recursion core of `chunked`, on the raw interval bounds.  The
`fuel` argument makes the recursion structural; `b - a` steps always
suffice since each chunk consumes at least one byte. -/
def chunkedGo (c : Nat) : Nat → Nat → Nat → List ByteRange
  | 0, _, _ => []
  | fuel + 1, a, b =>
    if a < b && 0 < c then
      ⟨a, min (a + c) b⟩ :: chunkedGo c fuel (min (a + c) b) b
    else
      []

/-- Modelled from the spec: chunking of a byte range at chunk size `c`:
consecutive subranges of `c` bytes, the last possibly shorter
(`realize_types::ByteRange::chunked`). -/
def chunked (r : ByteRange) (c : Nat) : List ByteRange :=
  chunkedGo c (r.stop - r.start) r.start r.stop

end ByteRange

/-- Modelled from the spec: `realize_types::ByteRanges`, a canonical
set of disjoint ascending ranges, here a sorted list of nonempty
disjoint `ByteRange`s. -/
abbrev ByteRanges := List ByteRange

namespace ByteRanges

/-- The empty range set (`ByteRanges::new`). -/
def new : ByteRanges := []

/-- A range set holding the single range `[s, e)`, canonically empty
when the range is (`ByteRanges::single`). -/
def single (s e : Nat) : ByteRanges :=
  if s < e then [⟨s, e⟩] else []

/-- Emptiness test (`ByteRanges::is_empty`). -/
def isEmpty (rs : ByteRanges) : Bool :=
  rs.all ByteRange.isEmpty

/-- Total number of bytes covered (`ByteRanges::bytecount`). -/
def bytecount (rs : ByteRanges) : Nat :=
  (rs.map ByteRange.bytecount).sum

/-- Modelled from the spec: insert a range, merging any overlapping or
adjacent ranges so that the result stays canonical
(`ByteRanges::add`). -/
def addRange : List ByteRange → ByteRange → List ByteRange
  | [], r => [r]
  | x :: xs, r =>
    if x.stop < r.start then x :: addRange xs r
    else if r.stop < x.start then r :: x :: xs
    else addRange xs ⟨min x.start r.start, max x.stop r.stop⟩

/-- `ByteRanges::add`, skipping empty ranges to keep the set canonical. -/
def add (rs : ByteRanges) (r : ByteRange) : ByteRanges :=
  if r.isEmpty then rs else addRange rs r

/-- The part of `r` that lies outside `x` (zero, one or two pieces). -/
def subtractOne (r x : ByteRange) : List ByteRange :=
  (if r.start < min r.stop x.start then [⟨r.start, min r.stop x.start⟩] else []) ++
    (if max r.start x.stop < r.stop then [⟨max r.start x.stop, r.stop⟩] else [])

/-- Modelled from the spec: set subtraction of range sets
(`ByteRanges::subtraction`). -/
def subtraction (rs ys : ByteRanges) : ByteRanges :=
  ys.foldl (fun acc y => acc.flatMap (fun r => subtractOne r y)) rs

/-- Chunking of a range set at chunk size `c`: every range is chunked
in order (`ByteRanges::chunked`). -/
def chunked (rs : ByteRanges) (c : Nat) : List ByteRange :=
  rs.flatMap (fun r => r.chunked c)

end ByteRanges

/-- Modelled from the spec: `RangedHash` (crate `realize-core`,
`rpc/realstore`, not under `src/`), an ordered mapping from byte range
to hash, kept sorted by range start. -/
abbrev RangedHash := List (ByteRange × Hash)

namespace RangedHash

/-- The empty mapping (`RangedHash::new`). -/
def new : RangedHash := []

/-- Insert a `(range, hash)` pair keeping the mapping ordered by range
start (`RangedHash::add`). -/
def add : RangedHash → ByteRange → Hash → RangedHash
  | [], r, h => [(r, h)]
  | (r0, h0) :: rest, r, h =>
    if r.start < r0.start then (r, h) :: (r0, h0) :: rest
    else (r0, h0) :: add rest r h

/-- Look up the hash recorded for exactly the range `r`. -/
def findRange (m : RangedHash) (r : ByteRange) : Option Hash :=
  match m.find? (fun p => p.1 = r) with
  | some p => some p.2
  | none => none

/-- Helper for `is_complete`: the entries starting from offset `pos`
tile `[pos, size)` with nonempty ranges and non-zero hashes. -/
def tile (pos : Nat) : List (ByteRange × Hash) → Nat → Bool
  | [], size => pos = size
  | (r, h) :: rest, size =>
    r.start = pos && decide (pos < r.stop) && h ≠ Hash.zero && tile r.stop rest size

/-- Modelled from the spec: `RangedHash::is_complete(size)` holds iff
the recorded ranges tile `[0, size)`; a range hashed to `Hash::zero`
(reported for reads past end-of-file) makes the mapping incomplete. -/
def is_complete (m : RangedHash) (size : Nat) : Bool :=
  tile 0 m size

/-- Modelled from the spec: `RangedHash::diff(other)` returns the
`(matching_ranges, mismatching_ranges)` pair: ranges recorded in both
mappings with equal hashes match; ranges with differing hashes or
present on only one side mismatch. -/
def diff (a b : RangedHash) : ByteRanges × ByteRanges :=
  let matched := a.foldl
    (fun acc p => if b.findRange p.1 = some p.2 then acc.add p.1 else acc)
    ByteRanges.new
  let mm1 := a.foldl
    (fun acc p => if b.findRange p.1 = some p.2 then acc else acc.add p.1)
    ByteRanges.new
  let mismatched := b.foldl
    (fun acc p => if (a.findRange p.1).isSome then acc else acc.add p.1)
    mm1
  (matched, mismatched)

end RangedHash

/-! ## Error types (`realize-storage/src/error.rs`, `movedirs.rs`) -/

/-- Semantic errors returned by a peer store
(`realize_storage::RealStoreError`); only the constructors the
consensus core inspects are distinguished, the rest carry a code. -/
inductive RealStoreError where
  | hashMismatch
  | notFound
  | unavailable
  | isADirectory
  | invalidRsyncSignature
  | otherError (code : Nat)
  deriving DecidableEq, Repr

/-- Errors returned by `move_file` and friends
(`movedirs.rs::MoveFileError`).  Transport and I/O errors carry an
opaque code. -/
inductive MoveFileError where
  | rpc (code : Nat)
  | realize (e : RealStoreError)
  | io (code : Nat)
  | failedToSync
  | otherError (code : Nat)
  deriving DecidableEq, Repr

/-! ## The sync protocol (`movedirs.rs`)

The per-file protocol is embedded as a deterministic function of a
`MoveWorld`: a record of oracles giving, for each RPC the protocol can
issue, the response of the environment.  The destination hash / finish
/ delete oracles exist twice because `move_file` runs the verify phase
twice, against a destination whose state changed in between.  Each
function returns its result together with the trace of RPC calls and
progress events it performs, in order.  Progress events are emitted
only when a progress channel is attached (`progress_tx` is `Some` in
the Rust code), reflected by the `hasTx` flag. -/

/-- Copy / rsync chunk size: 4 MiB (`movedirs.rs::CHUNK_SIZE`). -/
def CHUNK_SIZE : Nat := 4 * 1024 * 1024

/-- Hashing chunk size: 256 MiB (`movedirs.rs::HASH_FILE_CHUNK`). -/
def HASH_FILE_CHUNK : Nat := 256 * 1024 * 1024

/-- Opaque rolling-checksum signature token (`realize_types::Signature`). -/
abbrev Sig := Nat

/-- Opaque delta token (`realize_types::Delta`). -/
abbrev Delta := Nat

/-- One entry of the trace of a `move_file` run: an RPC call on the
source or destination, or a `ProgressEvent` sent on the progress
channel (`movedirs.rs::ProgressEvent`). -/
inductive Event where
  | readE (r : ByteRange)
  | sendE (r : ByteRange)
  | truncateE (size : Nat)
  | srcHashE (r : ByteRange)
  | dstHashE (r : ByteRange)
  | calcSigE (r : ByteRange)
  | diffE (r : ByteRange)
  | applyDeltaE (r : ByteRange)
  | finishE
  | deleteE
  | verifyingE
  | rsyncingE
  | copyingE
  | pendingE
  | incrementE (bytecount : Nat)
  | decrementE (bytecount : Nat)
  deriving DecidableEq, Repr

/-- Whether an event is a `DecrementByteCount` progress event. -/
def Event.isDecrement : Event → Bool
  | .decrementE _ => true
  | _ => false

/-- The environment of one `move_file` run: responses of the source
and destination peers to each RPC the protocol can issue.  The Rust
calls return `Result<Result<T, RealStoreError>, RpcError>`; where the
code flattens both layers with `??` the oracle is already flattened
into a single `Except MoveFileError`, and for `apply_delta`, whose
inner error the code inspects, both layers are kept. -/
structure MoveWorld where
  readO : ByteRange → Except MoveFileError Nat
  sendO : ByteRange → Nat → Except MoveFileError Unit
  truncateO : Except MoveFileError Unit
  srcHashO : ByteRange → Except MoveFileError Hash
  dstHash1O : ByteRange → Except MoveFileError Hash
  dstHash2O : ByteRange → Except MoveFileError Hash
  calcSigO : ByteRange → Except MoveFileError Sig
  diffO : ByteRange → Sig → Except MoveFileError (Delta × Hash)
  applyDeltaO : ByteRange → Delta → Hash → Except MoveFileError (Except RealStoreError Unit)
  finishO : Except MoveFileError Unit
  deleteO : Except MoveFileError Unit
  finish2O : Except MoveFileError Unit
  delete2O : Except MoveFileError Unit

/-- Fold of `hash_file`'s collection loop: the first error (in chunk
order) aborts, otherwise every `(range, hash)` response is added to
the `RangedHash` (`movedirs.rs::hash_file`, collection loop). -/
def collectHashes (oracle : ByteRange → Except MoveFileError Hash) :
    List ByteRange → RangedHash → Except MoveFileError RangedHash
  | [], acc => .ok acc
  | r :: rest, acc =>
    match oracle r with
    | .error e => .error e
    | .ok h => collectHashes oracle rest (acc.add r h)

/-- `movedirs.rs::hash_file`: request the hash of every chunk of
`[0, file_size)` at `chunk_size` granularity and collect the responses
into a `RangedHash`.  All chunk requests are issued (the Rust stream
collects every response before inspecting any), so the request list is
the full chunk list even when the call fails; the bounded concurrency
of the request pool does not affect the result. -/
def hash_file (oracle : ByteRange → Except MoveFileError Hash)
    (file_size chunk_size : Nat) :
    Except MoveFileError RangedHash × List ByteRange :=
  let chunks := (ByteRange.mk 0 file_size).chunked chunk_size
  (collectHashes oracle chunks RangedHash.new, chunks)

/-- Result of `check_hashes_and_delete` (`movedirs.rs::HashCheck`). -/
inductive HashCheck where
  | matched
  | mismatch (partial_match : ByteRanges)
  deriving DecidableEq

/-- `movedirs.rs::check_hashes_and_delete`: hash the destination file,
diff against the source hash, and on a full match finish the
destination file then delete the source; otherwise report the matching
ranges as partial match and touch neither file. -/
def check_hashes_and_delete (dstHashO : ByteRange → Except MoveFileError Hash)
    (finishO deleteO : Except MoveFileError Unit)
    (src_hash : RangedHash) (file_size : Nat) :
    Except MoveFileError HashCheck × List Event :=
  let hashed := hash_file dstHashO file_size HASH_FILE_CHUNK
  let htrace := hashed.2.map Event.dstHashE
  match hashed.1 with
  | .error e => (.error e, htrace)
  | .ok dst_hash =>
    let is_complete_src := src_hash.is_complete file_size
    let is_complete_dst := dst_hash.is_complete file_size
    let d := src_hash.diff dst_hash
    if !(ByteRanges.isEmpty d.2) || !is_complete_src || !is_complete_dst then
      (.ok (.mismatch d.1), htrace)
    else
      match finishO with
      | .error e => (.error e, htrace ++ [.finishE])
      | .ok _ =>
        match deleteO with
        | .error e => (.error e, htrace ++ [.finishE, .deleteE])
        | .ok _ => (.ok .matched, htrace ++ [.finishE, .deleteE])

/-- Chunk loop of `copy_file_range`: read each chunk from the source,
send it to the destination, and report an increment of the chunk's
bytecount (`report_increment_bytecount` skips zero bytecounts). -/
def copyChunks (w : MoveWorld) (hasTx : Bool) :
    List ByteRange → Except MoveFileError Unit × List Event
  | [] => (.ok (), [])
  | r :: rest =>
    match w.readO r with
    | .error e => (.error e, [.readE r])
    | .ok data =>
      match w.sendO r data with
      | .error e => (.error e, [.readE r, .sendE r])
      | .ok _ =>
        let inc := if hasTx && r.bytecount != 0 then [Event.incrementE r.bytecount] else []
        let rec_ := copyChunks w hasTx rest
        (rec_.1, [Event.readE r, Event.sendE r] ++ inc ++ rec_.2)

/-- `movedirs.rs::copy_file_range`: nothing at all happens when the
range set is empty; otherwise the file goes `Pending` while waiting
for the global copy semaphore, then `Copying`, and the ranges are
copied chunk by chunk. -/
def copy_file_range (w : MoveWorld) (hasTx : Bool) (copy_ranges : ByteRanges) :
    Except MoveFileError Unit × List Event :=
  if ByteRanges.isEmpty copy_ranges then (.ok (), [])
  else
    let hdr := (if hasTx then [Event.pendingE] else []) ++
      (if hasTx then [Event.copyingE] else [])
    let body := copyChunks w hasTx (copy_ranges.chunked CHUNK_SIZE)
    (body.1, hdr ++ body.2)

/-- Chunk loop of `rsync_file_range`: per chunk, ask the destination
for a signature, the source for a delta against it, and the
destination to apply the delta.  A `HashMismatch` from `apply_delta`
adds the chunk to the fallback set and continues; any other error
aborts with the fallback set accumulated so far. -/
def rsyncChunks (w : MoveWorld) (hasTx : Bool) :
    List ByteRange → ByteRanges →
    Except MoveFileError Unit × List Event × ByteRanges
  | [], fb => (.ok (), [], fb)
  | r :: rest, fb =>
    match w.calcSigO r with
    | .error e => (.error e, [.calcSigE r], fb)
    | .ok sig =>
      match w.diffO r sig with
      | .error e => (.error e, [.calcSigE r, .diffE r], fb)
      | .ok dh =>
        match w.applyDeltaO r dh.1 dh.2 with
        | .error e => (.error e, [.calcSigE r, .diffE r, .applyDeltaE r], fb)
        | .ok (.ok _) =>
          let inc := if hasTx && r.bytecount != 0 then [Event.incrementE r.bytecount] else []
          let rec_ := rsyncChunks w hasTx rest fb
          (rec_.1, [Event.calcSigE r, Event.diffE r, Event.applyDeltaE r] ++ inc ++ rec_.2.1,
            rec_.2.2)
        | .ok (.error .hashMismatch) =>
          let rec_ := rsyncChunks w hasTx rest (fb.add r)
          (rec_.1, [Event.calcSigE r, Event.diffE r, Event.applyDeltaE r] ++ rec_.2.1,
            rec_.2.2)
        | .ok (.error e) =>
          (.error (.realize e), [.calcSigE r, .diffE r, .applyDeltaE r], fb)

/-- `movedirs.rs::rsync_file_range`: nothing happens when the range
set is empty; otherwise the file goes `Rsyncing` and the ranges are
processed chunk by chunk, returning the accumulated fallback ranges. -/
def rsync_file_range (w : MoveWorld) (hasTx : Bool) (rsync_ranges : ByteRanges) :
    Except MoveFileError Unit × List Event × ByteRanges :=
  if ByteRanges.isEmpty rsync_ranges then (.ok (), [], ByteRanges.new)
  else
    let body := rsyncChunks w hasTx (rsync_ranges.chunked CHUNK_SIZE) ByteRanges.new
    (body.1, (if hasTx then [Event.rsyncingE] else []) ++ body.2.1, body.2.2)

/-- Phases 4–6 of `move_file` (rsync the mismatch, copy fallback,
re-verify), entered with the matching ranges `correct` of the failed
first verification: compute `rsync_ranges`, report the compensating
decrement (skipped when zero), rsync, copy the fallback ranges, then
verify a second time; a second mismatch is `FailedToSync`. -/
def move_file_rest (w : MoveWorld) (hasTx : Bool) (src_size : Nat)
    (src_hash : RangedHash) (correct : ByteRanges) :
    Except MoveFileError Unit × List Event :=
  let ranges := ByteRanges.single 0 src_size
  let rsync_ranges := ranges.subtraction correct
  let decTr := if hasTx && rsync_ranges.bytecount != 0 then
    [Event.decrementE rsync_ranges.bytecount] else []
  let rs := rsync_file_range w hasTx rsync_ranges
  match rs.1 with
  | .error e => (.error e, decTr ++ rs.2.1)
  | .ok _ =>
    let cp := copy_file_range w hasTx rs.2.2
    match cp.1 with
    | .error e => (.error e, decTr ++ rs.2.1 ++ cp.2)
    | .ok _ =>
      let ver2 := if hasTx then [Event.verifyingE] else []
      let chk2 := check_hashes_and_delete w.dstHash2O w.finish2O w.delete2O src_hash src_size
      let tr := decTr ++ rs.2.1 ++ cp.2 ++ ver2 ++ chk2.2
      match chk2.1 with
      | .error e => (.error e, tr)
      | .ok (.mismatch _) => (.error .failedToSync, tr)
      | .ok .matched => (.ok (), tr)

/-- `movedirs.rs::move_file`: the per-file sync state machine.  Copy
the ranges missing from the destination (and truncate it when longer
than the source) while hashing the source; verify; on a full match the
destination was finished and the source deleted, return success; on a
mismatch continue with `move_file_rest`.  The `tokio::join!` of the
copy block and the source hashing is sequenced copy-then-hash here;
both arms always run to completion, and the copy arm's error takes
precedence, as in the Rust `copy?` before `src_hash?`. -/
def move_file (w : MoveWorld) (hasTx : Bool) (src_size dst_size : Nat) :
    Except MoveFileError Unit × List Event :=
  let ranges := ByteRanges.single 0 src_size
  let existing := ByteRanges.single 0 dst_size
  let copy_ranges := ranges.subtraction existing
  let cp := copy_file_range w hasTx copy_ranges
  let blk : Except MoveFileError Unit × List Event :=
    match cp.1 with
    | .error e => (.error e, cp.2)
    | .ok _ =>
      if dst_size > src_size then
        match w.truncateO with
        | .error e => (.error e, cp.2 ++ [.truncateE src_size])
        | .ok _ => (.ok (), cp.2 ++ [.truncateE src_size])
      else (.ok (), cp.2)
  let sh := hash_file w.srcHashO src_size HASH_FILE_CHUNK
  let shTr := sh.2.map Event.srcHashE
  match blk.1 with
  | .error e => (.error e, blk.2 ++ shTr)
  | .ok _ =>
    match sh.1 with
    | .error e => (.error e, blk.2 ++ shTr)
    | .ok src_hash =>
      let ver1 := if hasTx then [Event.verifyingE] else []
      let chk1 := check_hashes_and_delete w.dstHash1O w.finishO w.deleteO src_hash src_size
      let baseTr := blk.2 ++ shTr ++ ver1 ++ chk1.2
      match chk1.1 with
      | .error e => (.error e, baseTr)
      | .ok .matched => (.ok (), baseTr)
      | .ok (.mismatch correct) =>
        let rest := move_file_rest w hasTx src_size src_hash correct
        (rest.1, baseTr ++ rest.2)

/-! ## The scheduler's completion handling (`churten.rs`)

`background_job` drives the job stream through a bounded-parallelism
pool.  Its `while let` loop `tokio::select!`s between the pool's next
completion and `shutdown.cancelled()`: each iteration either dequeues
a completion — broadcasting its `Finish` notification and reporting
the terminal status to storage — or, as soon as the token is
cancelled, the select may yield `None` and end the loop, leaving any
completed-but-undequeued jobs unreported.  The embedding models one
iteration's body as the pure function `processCompletion` and a whole
run of the loop as the relation `LoopRun`, whose nondeterminism
captures the select between the two ready branches.  A handler outcome
is `Except String JobStatus`, the error string being the rendering of
the `anyhow` error (`err.to_string()`). -/

/-- Terminal job status reported to storage
(`realize_storage::JobStatus`). -/
inductive JobStatus where
  | done
  | abandoned
  deriving DecidableEq, Repr

/-- Observable progress carried by a `Finish` notification
(`consensus/types.rs::JobProgress`). -/
inductive JobProgress where
  | done
  | abandoned
  | cancelled
  | failed (msg : String)
  deriving DecidableEq, Repr

/-- The progress carried by the `Finish` notification for a completed
job (`churten.rs::background_job`, the `match &status` at the
broadcast): `Done` / `Abandoned` mirror an `Ok` handler status; a
handler error is `Cancelled` when the shutdown token is cancelled at
completion and `Failed(message)` otherwise. -/
def finishProgress (status : Except String JobStatus) (cancelled : Bool) : JobProgress :=
  match status with
  | .ok .done => .done
  | .ok .abandoned => .abandoned
  | .error err => if cancelled then .cancelled else .failed err

instance {ε α : Type} [DecidableEq ε] [DecidableEq α] : DecidableEq (Except ε α) := fun a b =>
  match a, b with
  | .ok x, .ok y =>
    if h : x = y then .isTrue (by rw [h]) else .isFalse (by simp [h])
  | .error e, .error f =>
    if h : e = f then .isTrue (by rw [h]) else .isFalse (by simp [h])
  | .ok _, .error _ => .isFalse (by simp)
  | .error _, .ok _ => .isFalse (by simp)

/-- Observable actions of the scheduler loop body: a broadcast
`Finish` notification, and the `storage.job_finished` callback. -/
inductive SchedEvent where
  | finishNotif (jobId : Nat) (progress : JobProgress)
  | jobFinished (jobId : Nat) (status : Except String JobStatus)
  deriving DecidableEq

/-- Body of the `while let` loop of `background_job` for one dequeued
completion: broadcast `Finish{progress}`, then call
`storage.job_finished` with the handler's status.  A failure of
`job_finished` is only logged, so the body branches on nothing but the
status and the token: both events are always emitted. -/
def processCompletion (jobId : Nat) (status : Except String JobStatus)
    (cancelled : Bool) : List SchedEvent :=
  [.finishNotif jobId (finishProgress status cancelled),
   .jobFinished jobId status]

/-- The events emitted by the loop body over a sequence of dequeued
completions, with the shutdown token's state sampled as `cancelled`
(`shutdown.is_cancelled()`).  This is not the whole loop: a run of
`background_job` processes only a prefix of the pool's completions
(see `LoopRun`); this function gives the events of that prefix. -/
def backgroundLoop (completions : List (Nat × Except String JobStatus))
    (cancelled : Bool) : List SchedEvent :=
  completions.flatMap (fun c => processCompletion c.1 c.2 cancelled)

/-- One run of `background_job`'s `while let` loop.  `completions` is
the order in which the unordered pool would hand out the handlers'
results; `LoopRun cancelled completions evs` holds when an execution
of the loop over them emits exactly `evs`.  Each iteration selects
between the next completion and `shutdown.cancelled()`:

* `done` — the stream is exhausted, the loop ends;
* `exit` — the token is cancelled, so `shutdown.cancelled()` is ready
  and the select may yield `None`, ending the loop with the pending
  completions undequeued and unreported;
* `step` — the next completion is dequeued and the body runs,
  emitting its `Finish` broadcast and `job_finished` call.

The select's choice between two ready branches is the relation's
nondeterminism; an uncancelled token makes `exit` unavailable, so the
loop then drains every completion. -/
inductive LoopRun (cancelled : Bool) :
    List (Nat × Except String JobStatus) → List SchedEvent → Prop where
  | done : LoopRun cancelled [] []
  | exit (pending : List (Nat × Except String JobStatus)) (h : cancelled = true) :
      LoopRun cancelled pending []
  | step (jid : Nat) (st : Except String JobStatus)
      (rest : List (Nat × Except String JobStatus)) (evs : List SchedEvent)
      (h : LoopRun cancelled rest evs) :
      LoopRun cancelled ((jid, st) :: rest) (processCompletion jid st cancelled ++ evs)

/-! ## Indexed reader and rsync helper (`indexed_store.rs`) -/

/-- Errors of the storage crate surfaced by the indexed store
(`realize_storage::StorageError`); constructors not inspected here
carry a code. -/
inductive StorageError where
  | notFound
  | invalidRsyncSignature
  | io (code : Nat)
  | otherError (code : Nat)
  deriving DecidableEq, Repr

/-- An index entry for a path: recorded size, mtime and hash
(`realize-storage` index, as used by `Reader::metadata`).  Mtimes are
opaque tokens compared for equality. -/
structure IndexEntry where
  size : Nat
  mtime : Nat
  hash : Hash
  deriving DecidableEq

/-- On-disk metadata of the opened file: length and mtime. -/
structure FileMeta where
  len : Nat
  mtime : Nat
  deriving DecidableEq

/-- `indexed_store.rs::Reader::metadata`: returns the on-disk size
together with the indexed hash, but only when the index lookup
succeeded with an entry whose recorded size and mtime equal the
on-disk ones; any lookup failure, missing entry, or size/mtime
disagreement yields `None` for the hash.  `metaRes` is the result of
`file.metadata()`, `entryRes` the result of `index.get_file(path)`. -/
def Reader.metadata (metaRes : Except StorageError FileMeta)
    (entryRes : Except StorageError (Option IndexEntry)) :
    Except StorageError (Nat × Option Hash) :=
  match metaRes with
  | .error e => .error e
  | .ok m =>
    let hash : Option Hash :=
      match entryRes with
      | .ok (some entry) =>
        if entry.size = m.len ∧ entry.mtime = m.mtime then some entry.hash else none
      | _ => none
    .ok (m.len, hash)

/-- `indexed_store.rs::rsync`: deserialize the signature (failure is
`InvalidRsyncSignature`), require the path in the index (failure is
`NotFound`), open the file and `read_exact` a buffer of
`range.bytecount()` bytes — the file is read from its beginning, no
seek to `range.start` is performed — then diff those bytes against the
signature.  `parsedSig` is the outcome of
`fast_rsync::Signature::deserialize`; `diffO` models
`fast_rsync::diff` against the parsed signature; `fileData` is the
file's content as a byte list; a too-short file makes `read_exact`
fail with an I/O error. -/
def indexed_rsync (diffO : Sig → List Nat → Except StorageError (List Nat))
    (parsedSig : Option Sig) (inIndex : Bool) (fileData : List Nat)
    (range : ByteRange) : Except StorageError (List Nat) :=
  match parsedSig with
  | none => .error .invalidRsyncSignature
  | some sig =>
    if !inIndex then .error .notFound
    else
      let len := range.bytecount
      if fileData.length < len then .error (.io 0)
      else diffO sig (fileData.take len)

/-! ## Concrete environments used to witness the theorems -/

/-- An environment whose every RPC succeeds; all hashes are `1`. -/
def allOkWorld : MoveWorld where
  readO := fun _ => .ok 0
  sendO := fun _ _ => .ok ()
  truncateO := .ok ()
  srcHashO := fun _ => .ok 1
  dstHash1O := fun _ => .ok 1
  dstHash2O := fun _ => .ok 1
  calcSigO := fun _ => .ok 0
  diffO := fun _ _ => .ok (0, 1)
  applyDeltaO := fun _ _ _ => .ok (.ok ())
  finishO := .ok ()
  deleteO := .ok ()
  finish2O := .ok ()
  delete2O := .ok ()

/-- An environment whose hash RPCs all answer `Hash::zero`, as a
remote does for a range beyond end-of-file; every other RPC
succeeds. -/
def zeroHashWorld : MoveWorld where
  readO := fun _ => .ok 0
  sendO := fun _ _ => .ok ()
  truncateO := .ok ()
  srcHashO := fun _ => .ok Hash.zero
  dstHash1O := fun _ => .ok Hash.zero
  dstHash2O := fun _ => .ok Hash.zero
  calcSigO := fun _ => .ok 0
  diffO := fun _ _ => .ok (0, 1)
  applyDeltaO := fun _ _ _ => .ok (.ok ())
  finishO := .ok ()
  deleteO := .ok ()
  finish2O := .ok ()
  delete2O := .ok ()

/-- An environment where `apply_delta` answers `HashMismatch` on the
chunk starting at 0 and `NotFound` on every other chunk. -/
def applyDeltaFailWorld : MoveWorld where
  readO := fun _ => .ok 0
  sendO := fun _ _ => .ok ()
  truncateO := .ok ()
  srcHashO := fun _ => .ok 1
  dstHash1O := fun _ => .ok 1
  dstHash2O := fun _ => .ok 1
  calcSigO := fun _ => .ok 0
  diffO := fun _ _ => .ok (0, 1)
  applyDeltaO := fun r _ _ =>
    if r.start = 0 then .ok (.error .hashMismatch) else .ok (.error .notFound)
  finishO := .ok ()
  deleteO := .ok ()
  finish2O := .ok ()
  delete2O := .ok ()

/-- `allOkWorld`, except that the first destination hashing answers
`2` where the source hashing answers `1`: the first verification
mismatches. -/
def mismatchWorld : MoveWorld :=
  { allOkWorld with dstHash1O := fun _ => .ok 2 }

/-! ## Chunking: closed enumeration

`chunked` splits `[a, b)` into `⌈(b-a)/c⌉` consecutive chunks; the
`i`-th is `[a + i·c, min (a + (i+1)·c) b)`. -/

theorem chunkedGo_zero_chunk : ∀ (fuel a b : Nat), ByteRange.chunkedGo 0 fuel a b = [] := by
  intro fuel a b
  cases fuel <;> simp [ByteRange.chunkedGo]

theorem chunkedGo_eq (c : Nat) (hc : 0 < c) :
    ∀ (fuel n a : Nat), n ≤ fuel →
      ByteRange.chunkedGo c fuel a (a + n) =
        (List.range ((n + c - 1) / c)).map
          (fun i => ⟨a + i * c, min (a + (i + 1) * c) (a + n)⟩) := by
  intro fuel
  induction fuel with
  | zero =>
    intro n a hn
    have hn0 : n = 0 := Nat.le_zero.mp hn
    subst hn0
    have hdiv : (c - 1) / c = 0 := Nat.div_eq_of_lt (by omega)
    simp [ByteRange.chunkedGo, hdiv]
  | succ fuel ih =>
    intro n a hn
    by_cases hn0 : 0 < n
    · rw [ByteRange.chunkedGo, if_pos]
      · by_cases hcn : n ≤ c
        · have hmin : min (a + c) (a + n) = a + n := by omega
          have hdiv : (n + c - 1) / c = 1 := Nat.div_eq_of_lt_le (by omega) (by omega)
          have htail : ByteRange.chunkedGo c fuel (a + n) (a + n) = [] := by
            have := ih 0 (a + n) (Nat.zero_le _)
            have hdiv0 : (c - 1) / c = 0 := Nat.div_eq_of_lt (by omega)
            simpa [hdiv0] using this
          rw [hmin, htail, hdiv]
          have hrange : List.range 1 = [0] := by decide
          rw [hrange]
          simp only [List.map_cons, List.map_nil]
          congr 2 <;> omega
        · have hcn' : c < n := Nat.lt_of_not_le hcn
          have hmin : min (a + c) (a + n) = a + c := by omega
          have htail := ih (n - c) (a + c) (by omega)
          have hsum : a + c + (n - c) = a + n := by omega
          rw [hsum] at htail
          have hdiv1 : (n - c + c - 1) / c = (n - 1) / c := by
            congr 1
            omega
          rw [hdiv1] at htail
          have hdiv2 : (n + c - 1) / c = (n - 1) / c + 1 := by
            have : n + c - 1 = (n - 1) + c := by omega
            rw [this, Nat.add_div_right _ hc]
          rw [hmin, htail, hdiv2, List.range_succ_eq_map]
          simp only [List.map_cons, List.map_map]
          refine List.cons_eq_cons.mpr ⟨?_, ?_⟩
          · simp only [ByteRange.mk.injEq, Nat.zero_add, Nat.one_mul, Nat.zero_mul,
              Nat.add_zero]
            exact ⟨trivial, (min_eq_left (by omega : a + c ≤ a + n)).symm⟩
          · apply List.map_congr_left
            intro i _
            simp only [Function.comp_apply, Nat.succ_eq_add_one]
            have h1 : a + c + i * c = a + (i + 1) * c := by ring
            have h2 : a + c + (i + 1) * c = a + (i + 1 + 1) * c := by ring
            rw [h1, h2]
      · exact by simp; omega
    · have hn' : n = 0 := by omega
      subst hn'
      have hdiv : (c - 1) / c = 0 := Nat.div_eq_of_lt (by omega)
      simp [ByteRange.chunkedGo, hdiv]

/-- The chunking of `[0, S)` at chunk size `C` is the specification's
enumeration `[0,C), [C,2C), …`: `⌈S/C⌉` chunks, the `i`-th being
`[i·C, min ((i+1)·C) S)`. -/
theorem chunked_zero_start (S C : Nat) :
    (ByteRange.mk 0 S).chunked C =
      (List.range ((S + C - 1) / C)).map (fun i => ⟨i * C, min ((i + 1) * C) S⟩) := by
  by_cases hc : 0 < C
  · have := chunkedGo_eq C hc S S (Nat.le_refl S) (a := 0)
    simpa [ByteRange.chunked] using this
  · have hc0 : C = 0 := by omega
    subst hc0
    simp [ByteRange.chunked, chunkedGo_zero_chunk, Nat.div_zero]

/-! ## Membership in collected ranged hashes -/

theorem mem_rangedHash_add (m : RangedHash) (r : ByteRange) (hsh : Hash)
    (p : ByteRange × Hash) :
    p ∈ RangedHash.add m r hsh ↔ p ∈ m ∨ p = (r, hsh) := by
  induction m with
  | nil => simp [RangedHash.add]
  | cons q rest ih =>
    obtain ⟨r0, h0⟩ := q
    by_cases hlt : r.start < r0.start
    · rw [RangedHash.add, if_pos hlt]
      simp only [List.mem_cons]
      tauto
    · rw [RangedHash.add, if_neg hlt]
      simp only [List.mem_cons, ih]
      tauto

theorem collectHashes_ok_mem (oracle : ByteRange → Except MoveFileError Hash) :
    ∀ (chunks : List ByteRange) (acc rh : RangedHash),
      collectHashes oracle chunks acc = .ok rh →
      ∀ p : ByteRange × Hash,
        (p ∈ rh ↔ p ∈ acc ∨ (p.1 ∈ chunks ∧ oracle p.1 = .ok p.2)) := by
  intro chunks
  induction chunks with
  | nil =>
    intro acc rh h p
    simp only [collectHashes, Except.ok.injEq] at h
    subst h
    simp
  | cons r rest ih =>
    intro acc rh h p
    rw [collectHashes] at h
    cases ho : oracle r with
    | error e => rw [ho] at h; cases h
    | ok hh =>
      rw [ho] at h
      have hmem := ih (acc.add r hh) rh h p
      rw [hmem, mem_rangedHash_add]
      constructor
      · rintro ((hacc | rfl) | ⟨hrest, hor⟩)
        · exact Or.inl hacc
        · exact Or.inr ⟨List.mem_cons_self _ _, ho⟩
        · exact Or.inr ⟨List.mem_cons_of_mem _ hrest, hor⟩
      · rintro (hacc | ⟨hmem1, hor⟩)
        · exact Or.inl (Or.inl hacc)
        · rcases List.mem_cons.mp hmem1 with he | hrest
          · refine Or.inl (Or.inr ?_)
            rw [Prod.ext_iff]
            refine ⟨he, ?_⟩
            rw [he, ho] at hor
            exact (Except.ok.inj hor).symm
          · exact Or.inr ⟨hrest, hor⟩

theorem collectHashes_error (oracle : ByteRange → Except MoveFileError Hash) :
    ∀ (chunks : List ByteRange) (acc : RangedHash) (r : ByteRange) (e : MoveFileError),
      r ∈ chunks → oracle r = .error e →
      ∃ e2, collectHashes oracle chunks acc = .error e2 := by
  intro chunks
  induction chunks with
  | nil =>
    intro acc r e hmem
    cases hmem
  | cons q rest ih =>
    intro acc r e hmem ho
    rw [collectHashes]
    cases hq : oracle q with
    | error e2 => exact ⟨e2, rfl⟩
    | ok hh =>
      rcases List.mem_cons.mp hmem with he | hrest
      · subst he
        rw [ho] at hq
        cases hq
      · exact ih (acc.add q hh) r e hrest ho

/-- C9: `hash_file` requests the hashes of precisely the chunking of
`[0, S)` at chunk size `C` (the `⌈S/C⌉` ranges
`[0,C), [C,2C), …, [⌊S/C⌋·C, S)`); on success the returned
`RangedHash` holds exactly those ranges with the remote's hashes;
and the whole call fails whenever any single range's request fails. -/
theorem hash_file_chunks (oracle : ByteRange → Except MoveFileError Hash) (S C : Nat) :
    (hash_file oracle S C).2 =
      (List.range ((S + C - 1) / C)).map (fun i => ⟨i * C, min ((i + 1) * C) S⟩)
    ∧ (∀ rh, (hash_file oracle S C).1 = .ok rh →
        ∀ p : ByteRange × Hash,
          (p ∈ rh ↔ p.1 ∈ (hash_file oracle S C).2 ∧ oracle p.1 = .ok p.2))
    ∧ (∀ r e, r ∈ (hash_file oracle S C).2 → oracle r = .error e →
        ∃ e2, (hash_file oracle S C).1 = .error e2) := by
  refine ⟨?_, ?_, ?_⟩
  · simp [hash_file, chunked_zero_start]
  · intro rh h p
    have := collectHashes_ok_mem oracle _ _ _ h p
    simpa [hash_file, RangedHash.new] using this
  · intro r e hr ho
    exact collectHashes_error oracle _ RangedHash.new r e (by simpa [hash_file] using hr) ho

/-- Witness for C9: on a 10-byte file at chunk size 4 the requested
ranges are `[0,4), [4,8), [8,10)`; a collected pair is a member, and a
failing range fails the call. -/
theorem hash_file_chunks_witness :
    ((⟨0, 4⟩, 5) ∈ ([(⟨0, 4⟩, 5), (⟨4, 8⟩, 5), (⟨8, 10⟩, 5)] : RangedHash))
    ∧ (∃ e2, (hash_file (fun _ => .error (.rpc 0)) 10 4).1 = .error e2) :=
  ⟨((hash_file_chunks (fun _ => .ok 5) 10 4).2.1 _ rfl (⟨0, 4⟩, 5)).mpr ⟨by decide, rfl⟩,
    (hash_file_chunks (fun _ => .error (.rpc 0)) 10 4).2.2 ⟨0, 4⟩ (.rpc 0) (by decide) rfl⟩

/-! ## Claims about the scheduler (`churten.rs`) -/

/-- C2: for every job the scheduler completes, the progress carried by
the `Finish` notification is `Done` for `Ok(Done)`, `Abandoned` for
`Ok(Abandoned)`, `Cancelled` for an error with the shutdown token
cancelled at completion, and `Failed(message)` for an error with the
token not cancelled. -/
theorem churten_finish_progress (jobId : Nat) (c : Bool) (msg : String) :
    processCompletion jobId (.ok .done) c =
      [.finishNotif jobId .done, .jobFinished jobId (.ok .done)]
    ∧ processCompletion jobId (.ok .abandoned) c =
      [.finishNotif jobId .abandoned, .jobFinished jobId (.ok .abandoned)]
    ∧ processCompletion jobId (.error msg) true =
      [.finishNotif jobId .cancelled, .jobFinished jobId (.error msg)]
    ∧ processCompletion jobId (.error msg) false =
      [.finishNotif jobId (.failed msg), .jobFinished jobId (.error msg)] :=
  ⟨rfl, rfl, rfl, rfl⟩

/-- C4 as stated is false on the code: once the shutdown token is
cancelled, the `tokio::select!` in `background_job` may yield `None`
and end the loop before the next completion is dequeued.  Here job 1's
handler has completed, the token is cancelled, and the loop exits: an
admissible run emits no event at all, so the completed job gets
neither its `Finish` broadcast nor its `job_finished` call. -/
theorem churten_report_skipped_counterexample :
    LoopRun true [(1, .ok .done)] []
    ∧ SchedEvent.finishNotif 1 JobProgress.done ∉ ([] : List SchedEvent)
    ∧ SchedEvent.jobFinished 1 (.ok .done) ∉ ([] : List SchedEvent) :=
  ⟨.exit _ rfl, by simp, by simp⟩

/-- C4 (amended): every run of the scheduler loop processes a prefix
of the pool's completions, and a proper prefix is possible only when
the shutdown token is cancelled.  Every completion the loop dequeues
gets both its `Finish` broadcast and its `job_finished` call — also
when the token is already cancelled: the loop body never skips the
status-report step; only the early loop exit under cancellation can
leave a completed job unreported. -/
theorem churten_report_dequeued (cancelled : Bool)
    (completions : List (Nat × Except String JobStatus)) (evs : List SchedEvent)
    (h : LoopRun cancelled completions evs) :
    ∃ k, evs = backgroundLoop (completions.take k) cancelled
      ∧ (k = completions.length ∨ cancelled = true)
      ∧ ∀ jid st, (jid, st) ∈ completions.take k →
          SchedEvent.finishNotif jid (finishProgress st cancelled) ∈ evs
          ∧ SchedEvent.jobFinished jid st ∈ evs := by
  induction h with
  | done => exact ⟨0, rfl, Or.inl rfl, by simp⟩
  | exit pending hc => exact ⟨0, rfl, Or.inr hc, by simp⟩
  | step jid st rest evs0 hrun ih =>
    obtain ⟨k, hevs, hk, hmem⟩ := ih
    simp only [backgroundLoop] at hevs
    refine ⟨k + 1, ?_, ?_, ?_⟩
    · simp only [backgroundLoop, List.take_succ_cons, List.flatMap_cons]
      rw [hevs]
    · rcases hk with hk | hk
      · exact Or.inl (by simp [hk])
      · exact Or.inr hk
    · intro jid2 st2 hmem2
      rw [List.take_succ_cons] at hmem2
      rcases List.mem_cons.mp hmem2 with he | hrest
      · injection he with h1 h2
        subst h1
        subst h2
        exact ⟨List.mem_append_left _ (by simp [processCompletion]),
          List.mem_append_left _ (by simp [processCompletion])⟩
      · have hin := hmem jid2 st2 hrest
        exact ⟨List.mem_append_right _ hin.1, List.mem_append_right _ hin.2⟩

/-- Witness for the amended C4: a run with an uncancelled token drains
its one completion, broadcasting `Finish{Done}` and reporting to
storage. -/
theorem churten_report_dequeued_witness :
    SchedEvent.finishNotif 1 JobProgress.done ∈
      processCompletion 1 (Except.ok JobStatus.done) false ++ ([] : List SchedEvent)
    ∧ SchedEvent.jobFinished 1 (Except.ok JobStatus.done) ∈
      processCompletion 1 (Except.ok JobStatus.done) false ++ ([] : List SchedEvent) := by
  obtain ⟨k, hevs, hk, hmem⟩ :=
    churten_report_dequeued false [(1, Except.ok JobStatus.done)] _
      (LoopRun.step 1 (Except.ok JobStatus.done) [] [] LoopRun.done)
  rcases hk with hk | hk
  · have h1 := hmem 1 (Except.ok JobStatus.done) (by rw [hk]; simp)
    exact ⟨h1.1, h1.2⟩
  · exact Bool.noConfusion hk

/-! ## Claims about the indexed store (`indexed_store.rs`) -/

/-- C8: `Reader::metadata` returns `(size_on_disk, Some(hash))`
exactly when the index lookup returned an entry whose recorded size
and mtime equal the on-disk ones, and `(size_on_disk, None)` in every
other case. -/
theorem reader_metadata_hash_iff (m : FileMeta)
    (entryRes : Except StorageError (Option IndexEntry)) :
    (∀ h : Hash, Reader.metadata (.ok m) entryRes = .ok (m.len, some h) ↔
      ∃ e : IndexEntry, entryRes = .ok (some e) ∧ e.size = m.len ∧
        e.mtime = m.mtime ∧ e.hash = h)
    ∧ ((¬ ∃ e : IndexEntry, entryRes = .ok (some e) ∧ e.size = m.len ∧
          e.mtime = m.mtime) →
        Reader.metadata (.ok m) entryRes = .ok (m.len, none)) := by
  constructor
  · intro h
    constructor
    · intro heq
      match entryRes with
      | .error e => simp [Reader.metadata] at heq
      | .ok none => simp [Reader.metadata] at heq
      | .ok (some entry) =>
        by_cases hc : entry.size = m.len ∧ entry.mtime = m.mtime
        · refine ⟨entry, rfl, hc.1, hc.2, ?_⟩
          simp [Reader.metadata, if_pos hc] at heq
          exact heq
        · simp [Reader.metadata, if_neg hc] at heq
    · rintro ⟨e, rfl, hsz, hmt, rfl⟩
      simp [Reader.metadata, if_pos (And.intro hsz hmt)]
  · intro hno
    match entryRes with
    | .error e => simp [Reader.metadata]
    | .ok none => simp [Reader.metadata]
    | .ok (some entry) =>
      have hc : ¬(entry.size = m.len ∧ entry.mtime = m.mtime) := by
        intro hc
        exact hno ⟨entry, rfl, hc.1, hc.2⟩
      simp [Reader.metadata, if_neg hc]

/-- Witness for C8: an entry matching size and mtime yields the hash;
a size disagreement yields `None`. -/
theorem reader_metadata_hash_iff_witness :
    Reader.metadata (.ok ⟨6, 5⟩) (.ok (some ⟨6, 5, 7⟩)) = .ok (6, some 7)
    ∧ Reader.metadata (.ok ⟨8, 5⟩) (.ok (some ⟨6, 5, 7⟩)) = .ok (8, none) :=
  ⟨((reader_metadata_hash_iff ⟨6, 5⟩ (.ok (some ⟨6, 5, 7⟩))).1 7).mpr
      ⟨⟨6, 5, 7⟩, rfl, rfl, rfl, rfl⟩,
    (reader_metadata_hash_iff ⟨8, 5⟩ (.ok (some ⟨6, 5, 7⟩))).2 (by simp)⟩

/-- C10: the rsync helper deserializes the signature before consulting
the index: for a path absent from the index and a signature that does
not deserialize, the error is `InvalidRsyncSignature`, not
`NotFound`. -/
theorem rsync_sig_checked_before_index
    (diffO : Sig → List Nat → Except StorageError (List Nat))
    (fileData : List Nat) (range : ByteRange) :
    indexed_rsync diffO none false fileData range = .error .invalidRsyncSignature :=
  rfl

/-- C3 (failing input): the rsync helper reads the *first*
`range.bytecount()` bytes of the file — it never seeks to
`range.start`.  On file content `[10, 11, 12, 13, 14, 15]` and range
`[2, 4)` the bytes handed to the delta computation are `[10, 11]`
(offsets 0–1), not `[12, 13]` (offsets 2–3) as the specification
states. -/
theorem rsync_reads_from_file_start :
    indexed_rsync (fun _ data => .ok data) (some 0) true
        [10, 11, 12, 13, 14, 15] ⟨2, 4⟩ = .ok [10, 11]
    ∧ [10, 11] ≠ [12, 13] := by
  exact ⟨rfl, by decide⟩

/-! ## Shape of the traces of the sync-protocol phases -/

/-- Events of the copy chunk loop: only reads, sends and byte-count
increments. -/
theorem mem_copyChunks (w : MoveWorld) (hasTx : Bool) :
    ∀ (chunks : List ByteRange) (e : Event), e ∈ (copyChunks w hasTx chunks).2 →
      (∃ r, e = .readE r) ∨ (∃ r, e = .sendE r) ∨ (∃ n, e = .incrementE n) := by
  intro chunks
  induction chunks with
  | nil => intro e he; simp [copyChunks] at he
  | cons r rest ih =>
    intro e he
    rw [copyChunks] at he
    cases hr : w.readO r with
    | error err =>
      simp only [hr] at he
      simp at he
      exact Or.inl ⟨r, he⟩
    | ok data =>
      simp only [hr] at he
      cases hs : w.sendO r data with
      | error err =>
        simp only [hs] at he
        simp at he
        rcases he with he | he
        · exact Or.inl ⟨r, he⟩
        · exact Or.inr (Or.inl ⟨r, he⟩)
      | ok u =>
        simp only [hs] at he
        simp only [List.cons_append, List.nil_append, List.mem_cons, List.mem_append] at he
        rcases he with he | he | he
        · exact Or.inl ⟨r, he⟩
        · exact Or.inr (Or.inl ⟨r, he⟩)
        · rcases he with he | he
          · rcases hb : (hasTx && r.bytecount != 0) with _ | _ <;> rw [hb] at he
            · simp at he
            · simp at he
              exact Or.inr (Or.inr ⟨r.bytecount, he⟩)
          · exact ih e he

/-- Events of `copy_file_range`: only the `Pending` / `Copying` state
events, reads, sends and byte-count increments. -/
theorem mem_copy_file_range (w : MoveWorld) (hasTx : Bool) (ranges : ByteRanges)
    (e : Event) (he : e ∈ (copy_file_range w hasTx ranges).2) :
    e = .pendingE ∨ e = .copyingE ∨ (∃ r, e = .readE r) ∨ (∃ r, e = .sendE r) ∨
      (∃ n, e = .incrementE n) := by
  rw [copy_file_range] at he
  by_cases hne : ByteRanges.isEmpty ranges
  · rw [if_pos hne] at he
    simp at he
  · rw [if_neg hne] at he
    simp only [List.mem_append] at he
    rcases he with he | he
    · cases hasTx
      · simp at he
      · simp at he
        tauto
    · rcases mem_copyChunks w hasTx _ e he with h | h | h
      · exact Or.inr (Or.inr (Or.inl h))
      · exact Or.inr (Or.inr (Or.inr (Or.inl h)))
      · exact Or.inr (Or.inr (Or.inr (Or.inr h)))

/-- `copy_file_range` on the empty range set does nothing. -/
theorem copy_file_range_nil (w : MoveWorld) (hasTx : Bool) :
    copy_file_range w hasTx [] = (.ok (), []) := rfl

/-- Subtracting the full range `[0, S)` from itself leaves nothing:
the copy-missing phase of two same-sized files copies no range. -/
theorem sub_single_self (S : Nat) :
    ByteRanges.subtraction (ByteRanges.single 0 S) (ByteRanges.single 0 S) = [] := by
  by_cases hS : 0 < S
  · simp only [ByteRanges.single, if_pos hS, ByteRanges.subtraction, List.foldl_cons,
      List.foldl_nil, List.flatMap_cons, List.flatMap_nil, ByteRanges.subtractOne]
    have h1 : ¬(0 < min S 0) := by omega
    have h2 : ¬(max 0 S < S) := by omega
    simp [h1, h2]
  · simp [ByteRanges.single, if_neg hS, ByteRanges.subtraction]

/-! ## The verify phase -/

/-- `check_hashes_and_delete`, solved: when the destination hashing
succeeds and finish/delete succeed, the call reduces to the diff and
completeness test. -/
theorem check_hashes_spec (dstHashO : ByteRange → Except MoveFileError Hash)
    (finishO deleteO : Except MoveFileError Unit)
    (src_hash : RangedHash) (file_size : Nat) (dh : RangedHash)
    (hdst : (hash_file dstHashO file_size HASH_FILE_CHUNK).1 = .ok dh)
    (hfin : finishO = .ok ()) (hdel : deleteO = .ok ()) :
    check_hashes_and_delete dstHashO finishO deleteO src_hash file_size =
      if ByteRanges.isEmpty (src_hash.diff dh).2 && src_hash.is_complete file_size &&
          dh.is_complete file_size then
        (.ok .matched,
          (hash_file dstHashO file_size HASH_FILE_CHUNK).2.map Event.dstHashE ++
            [Event.finishE, Event.deleteE])
      else
        (.ok (.mismatch (src_hash.diff dh).1),
          (hash_file dstHashO file_size HASH_FILE_CHUNK).2.map Event.dstHashE) := by
  subst hfin
  subst hdel
  rw [check_hashes_and_delete]
  rw [hdst]
  cases hx : ByteRanges.isEmpty (src_hash.diff dh).2 <;>
    cases hy : src_hash.is_complete file_size <;>
    cases hz : dh.is_complete file_size <;>
    simp [hx, hy, hz]

/-! ## Diffing a complete ranged hash against itself -/

/-- In a tiling starting at `pos`, every recorded range starts at or
after `pos`. -/
theorem tile_le_start :
    ∀ (l : List (ByteRange × Hash)) (pos size : Nat),
      RangedHash.tile pos l size = true → ∀ p ∈ l, pos ≤ p.1.start := by
  intro l
  induction l with
  | nil => intro pos size _ p hp; cases hp
  | cons q rest ih =>
    intro pos size h p hp
    obtain ⟨r, hh⟩ := q
    simp only [RangedHash.tile, Bool.and_eq_true, decide_eq_true_eq] at h
    obtain ⟨⟨⟨hstart, hlt⟩, _⟩, htile⟩ := h
    rcases List.mem_cons.mp hp with he | hrest
    · subst he
      exact Nat.le_of_eq hstart.symm
    · have hge : r.stop ≤ p.1.start := ih r.stop size htile p hrest
      omega

/-- In a tiling, looking up any recorded range finds its own hash. -/
theorem tile_findRange :
    ∀ (l : List (ByteRange × Hash)) (pos size : Nat),
      RangedHash.tile pos l size = true →
      ∀ p ∈ l, RangedHash.findRange l p.1 = some p.2 := by
  intro l
  induction l with
  | nil => intro pos size _ p hp; cases hp
  | cons q rest ih =>
    intro pos size h p hp
    obtain ⟨r, hh⟩ := q
    simp only [RangedHash.tile, Bool.and_eq_true, decide_eq_true_eq] at h
    obtain ⟨⟨⟨hstart, hlt⟩, _⟩, htile⟩ := h
    rcases List.mem_cons.mp hp with he | hrest
    · subst he
      simp [RangedHash.findRange, List.find?]
    · have hge : r.stop ≤ p.1.start := tile_le_start rest r.stop size htile p hrest
      have hne : ¬((r, hh).1 = p.1) := by
        intro hcontra
        have hcontra' : r = p.1 := hcontra
        rw [← hcontra'] at hge
        omega
      rw [RangedHash.findRange, List.find?]
      have hpred : (fun q : ByteRange × Hash => decide (q.1 = p.1)) (r, hh) = false := by
        simp [hne]
      simp only [decide_eq_false hne]
      exact ih r.stop size htile p hrest

/-- A fold that skips every element of the list returns its initial
accumulator. -/
theorem foldl_skip_all {α β : Type} :
    ∀ (l : List α) (acc : β) (f : β → α → β),
      (∀ p ∈ l, ∀ b, f b p = b) → List.foldl f acc l = acc := by
  intro l
  induction l with
  | nil => intro acc f _; rfl
  | cons q rest ih =>
    intro acc f h
    rw [List.foldl_cons, h q (List.mem_cons_self _ _) acc]
    exact ih acc f (fun p hp b => h p (List.mem_cons_of_mem _ hp) b)

/-- A complete ranged hash diffed against itself yields no
mismatching range. -/
theorem diff_self_mismatch_empty (h : RangedHash) (size : Nat)
    (hc : h.is_complete size = true) : (h.diff h).2 = [] := by
  have hfind := tile_findRange h 0 size hc
  rw [RangedHash.diff]
  simp only
  rw [foldl_skip_all h ByteRanges.new _ (fun p hp b => by rw [if_pos (hfind p hp)]),
    foldl_skip_all h ByteRanges.new _
      (fun p hp b => by rw [if_pos (by rw [hfind p hp]; rfl)])]
  rfl

/-- C7: `move_file` on already-identical source and destination files
(equal sizes, destination hashing to the same complete ranged hash as
the source) performs hash verification only: its trace holds the hash
requests, the `Verifying` event, then `finish` followed by `delete` —
no read, no send, no truncate, no signature/diff/apply-delta — and it
returns success. -/
theorem move_file_identical (w : MoveWorld) (hasTx : Bool) (S : Nat) (h : RangedHash)
    (hsrc : (hash_file w.srcHashO S HASH_FILE_CHUNK).1 = .ok h)
    (hdst : (hash_file w.dstHash1O S HASH_FILE_CHUNK).1 = .ok h)
    (hcomp : h.is_complete S = true)
    (hfin : w.finishO = .ok ()) (hdel : w.deleteO = .ok ()) :
    (move_file w hasTx S S).1 = .ok ()
    ∧ (move_file w hasTx S S).2 =
        (hash_file w.srcHashO S HASH_FILE_CHUNK).2.map Event.srcHashE ++
          (if hasTx then [Event.verifyingE] else []) ++
          (hash_file w.dstHash1O S HASH_FILE_CHUNK).2.map Event.dstHashE ++
          [Event.finishE, Event.deleteE]
    ∧ (∀ r, Event.readE r ∉ (move_file w hasTx S S).2)
    ∧ (∀ r, Event.sendE r ∉ (move_file w hasTx S S).2)
    ∧ (∀ n, Event.truncateE n ∉ (move_file w hasTx S S).2)
    ∧ (∀ r, Event.calcSigE r ∉ (move_file w hasTx S S).2)
    ∧ (∀ r, Event.diffE r ∉ (move_file w hasTx S S).2)
    ∧ (∀ r, Event.applyDeltaE r ∉ (move_file w hasTx S S).2) := by
  have hchk := check_hashes_spec w.dstHash1O w.finishO w.deleteO h S h hdst hfin hdel
  have hcond : (ByteRanges.isEmpty (h.diff h).2 && h.is_complete S &&
      h.is_complete S) = true := by
    rw [diff_self_mismatch_empty h S hcomp, hcomp]
    rfl
  rw [if_pos hcond] at hchk
  have hmf : move_file w hasTx S S =
      (.ok (), (hash_file w.srcHashO S HASH_FILE_CHUNK).2.map Event.srcHashE ++
        (if hasTx then [Event.verifyingE] else []) ++
        (hash_file w.dstHash1O S HASH_FILE_CHUNK).2.map Event.dstHashE ++
        [Event.finishE, Event.deleteE]) := by
    rw [move_file, sub_single_self S, copy_file_range_nil]
    simp only [gt_iff_lt, Nat.lt_irrefl, if_false, hsrc, hchk, List.nil_append,
      List.append_assoc]
  refine ⟨by rw [hmf], by rw [hmf], ?_, ?_, ?_, ?_, ?_, ?_⟩ <;>
    · intro x
      rw [hmf]
      cases hasTx <;> simp

/-- Witness for C7: two identical 3-byte files are verified and
finished with no read. -/
theorem move_file_identical_witness :
    (move_file allOkWorld true 3 3).1 = .ok ()
    ∧ Event.readE ⟨0, 3⟩ ∉ (move_file allOkWorld true 3 3).2 :=
  have hthm := move_file_identical allOkWorld true 3 [(⟨0, 3⟩, 1)] rfl rfl (by decide) rfl rfl
  ⟨hthm.1, hthm.2.2.1 ⟨0, 3⟩⟩

/-- C1: in `move_file`'s verify phase, with `dst_hash` computed and
`(matches, mismatches) = src_hash.diff(dst_hash)`: precisely when
`mismatches` is empty and both hashes are complete for the file size,
the phase calls `dst.finish` then `src.delete` (in that order) and
`move_file` returns success there; in every other case the phase
performs neither call, records `partial_match = matches`, and
`move_file` continues with the rsync phase on those matches. -/
theorem move_file_verify_phase (w : MoveWorld) (hasTx : Bool) (ssz dsz : Nat)
    (src_hash dh : RangedHash)
    (hcopy : (copy_file_range w hasTx
        ((ByteRanges.single 0 ssz).subtraction (ByteRanges.single 0 dsz))).1 = .ok ())
    (htrunc : w.truncateO = .ok ())
    (hsrc : (hash_file w.srcHashO ssz HASH_FILE_CHUNK).1 = .ok src_hash)
    (hdst : (hash_file w.dstHash1O ssz HASH_FILE_CHUNK).1 = .ok dh)
    (hfin : w.finishO = .ok ()) (hdel : w.deleteO = .ok ()) :
    ((ByteRanges.isEmpty (src_hash.diff dh).2 && src_hash.is_complete ssz &&
        dh.is_complete ssz) = true →
      (check_hashes_and_delete w.dstHash1O w.finishO w.deleteO src_hash ssz).1 = .ok .matched
      ∧ (check_hashes_and_delete w.dstHash1O w.finishO w.deleteO src_hash ssz).2 =
          (hash_file w.dstHash1O ssz HASH_FILE_CHUNK).2.map Event.dstHashE ++
            [Event.finishE, Event.deleteE]
      ∧ (move_file w hasTx ssz dsz).1 = .ok ())
    ∧ ((ByteRanges.isEmpty (src_hash.diff dh).2 && src_hash.is_complete ssz &&
        dh.is_complete ssz) = false →
      (check_hashes_and_delete w.dstHash1O w.finishO w.deleteO src_hash ssz).1 =
        .ok (.mismatch (src_hash.diff dh).1)
      ∧ Event.finishE ∉
          (check_hashes_and_delete w.dstHash1O w.finishO w.deleteO src_hash ssz).2
      ∧ Event.deleteE ∉
          (check_hashes_and_delete w.dstHash1O w.finishO w.deleteO src_hash ssz).2
      ∧ ∃ pre,
          move_file w hasTx ssz dsz =
            ((move_file_rest w hasTx ssz src_hash (src_hash.diff dh).1).1,
              pre ++ (move_file_rest w hasTx ssz src_hash (src_hash.diff dh).1).2)
          ∧ Event.finishE ∉ pre ∧ Event.deleteE ∉ pre) := by
  have hchk := check_hashes_spec w.dstHash1O w.finishO w.deleteO src_hash ssz dh hdst hfin hdel
  constructor
  · intro hc
    rw [if_pos hc] at hchk
    refine ⟨by rw [hchk], by rw [hchk], ?_⟩
    rw [move_file]
    by_cases hgt : dsz > ssz
    · simp only [hcopy, if_pos hgt, htrunc, hsrc, hchk]
    · simp only [hcopy, if_neg hgt, hsrc, hchk]
  · intro hc
    rw [if_neg (by rw [hc]; exact Bool.false_ne_true)] at hchk
    have hnofd : ∀ e, e ∈ (copy_file_range w hasTx
        ((ByteRanges.single 0 ssz).subtraction (ByteRanges.single 0 dsz))).2 →
        e ≠ Event.finishE ∧ e ≠ Event.deleteE := by
      intro e hmem
      rcases mem_copy_file_range w hasTx _ e hmem with h | h | ⟨r, h⟩ | ⟨r, h⟩ | ⟨n, h⟩ <;>
        subst h <;> exact ⟨by simp, by simp⟩
    refine ⟨by rw [hchk], by rw [hchk]; simp, by rw [hchk]; simp, ?_⟩
    by_cases hgt : dsz > ssz
    · refine ⟨(copy_file_range w hasTx
          ((ByteRanges.single 0 ssz).subtraction (ByteRanges.single 0 dsz))).2 ++
          [Event.truncateE ssz] ++
          (hash_file w.srcHashO ssz HASH_FILE_CHUNK).2.map Event.srcHashE ++
          (if hasTx then [Event.verifyingE] else []) ++
          (hash_file w.dstHash1O ssz HASH_FILE_CHUNK).2.map Event.dstHashE, ?_, ?_, ?_⟩
      · rw [move_file]
        simp only [hcopy, if_pos hgt, htrunc, hsrc, hchk, List.append_assoc]
      · intro hmem
        cases hasTx <;>
          [skip; skip] <;>
          · simp only [List.append_assoc, List.mem_append] at hmem
            rcases hmem with hmem | hmem
            · exact absurd rfl (hnofd _ hmem).1
            · simp at hmem
      · intro hmem
        cases hasTx <;>
          [skip; skip] <;>
          · simp only [List.append_assoc, List.mem_append] at hmem
            rcases hmem with hmem | hmem
            · exact absurd rfl (hnofd _ hmem).2
            · simp at hmem
    · refine ⟨(copy_file_range w hasTx
          ((ByteRanges.single 0 ssz).subtraction (ByteRanges.single 0 dsz))).2 ++
          (hash_file w.srcHashO ssz HASH_FILE_CHUNK).2.map Event.srcHashE ++
          (if hasTx then [Event.verifyingE] else []) ++
          (hash_file w.dstHash1O ssz HASH_FILE_CHUNK).2.map Event.dstHashE, ?_, ?_, ?_⟩
      · rw [move_file]
        simp only [hcopy, if_neg hgt, hsrc, hchk, List.append_assoc]
      · intro hmem
        cases hasTx <;>
          [skip; skip] <;>
          · simp only [List.append_assoc, List.mem_append] at hmem
            rcases hmem with hmem | hmem
            · exact absurd rfl (hnofd _ hmem).1
            · simp at hmem
      · intro hmem
        cases hasTx <;>
          [skip; skip] <;>
          · simp only [List.append_assoc, List.mem_append] at hmem
            rcases hmem with hmem | hmem
            · exact absurd rfl (hnofd _ hmem).2
            · simp at hmem

/-- Witness for C1: a 1-byte file copied to an empty destination with
matching hashes is finished and deleted, and `move_file` succeeds. -/
theorem move_file_verify_phase_witness :
    (check_hashes_and_delete allOkWorld.dstHash1O allOkWorld.finishO allOkWorld.deleteO
        [(⟨0, 1⟩, 1)] 1).1 = .ok .matched
    ∧ (move_file allOkWorld true 1 0).1 = .ok () :=
  have hthm := move_file_verify_phase allOkWorld true 1 0 [(⟨0, 1⟩, 1)] [(⟨0, 1⟩, 1)]
    rfl rfl rfl rfl rfl rfl
  have h2 := hthm.1 (by decide)
  ⟨h2.1, h2.2.2⟩

/-- The trace of `move_file_rest` always begins with the decrement
report (which is empty when no progress channel is attached or the
decremented bytecount is zero). -/
theorem move_file_rest_trace_shape (w : MoveWorld) (hasTx : Bool) (ssz : Nat)
    (src_hash : RangedHash) (correct : ByteRanges) :
    ∃ tail, (move_file_rest w hasTx ssz src_hash correct).2 =
      (if hasTx && ((ByteRanges.single 0 ssz).subtraction correct).bytecount != 0 then
        [Event.decrementE ((ByteRanges.single 0 ssz).subtraction correct).bytecount]
      else []) ++ tail := by
  rw [move_file_rest]
  cases h1 : (rsync_file_range w hasTx ((ByteRanges.single 0 ssz).subtraction correct)).1 with
  | error e => exact ⟨_, by simp only [h1]; rfl⟩
  | ok u =>
    simp only [h1]
    cases h2 : (copy_file_range w hasTx
        (rsync_file_range w hasTx ((ByteRanges.single 0 ssz).subtraction correct)).2.2).1 with
    | error e => exact ⟨_, by simp only [h2, List.append_assoc]; rfl⟩
    | ok v =>
      simp only [h2]
      cases h3 : (check_hashes_and_delete w.dstHash2O w.finish2O w.delete2O src_hash ssz).1 with
      | error e => exact ⟨_, by simp only [h3, List.append_assoc]; rfl⟩
      | ok chk =>
        cases chk with
        | matched => exact ⟨_, by simp only [h3, List.append_assoc]; rfl⟩
        | mismatch pm => exact ⟨_, by simp only [h3, List.append_assoc]; rfl⟩

/-- C5 as stated is false on the code: when the first verification
mismatches only because the hashes are incomplete (a chunk hashed to
`Hash::zero`) while every present chunk matches, `rsync_ranges` is
empty, and `report_decrement_bytecount` skips a zero bytecount — no
`DecrementByteCount` event is published in the entire run. -/
theorem move_file_decrement_counterexample :
    (check_hashes_and_delete zeroHashWorld.dstHash1O zeroHashWorld.finishO
        zeroHashWorld.deleteO [(⟨0, 8⟩, Hash.zero)] 8).1 = .ok (.mismatch [⟨0, 8⟩])
    ∧ (move_file zeroHashWorld true 8 8).2.countP Event.isDecrement = 0 :=
  ⟨rfl, rfl⟩

/-- C5 (amended): whenever the first verification reports a mismatch,
and `rsync_ranges = [0, src_size) − partial_match` has nonzero
bytecount, and a progress channel is attached, `move_file` publishes
one `DecrementByteCount` event carrying `rsync_ranges.bytecount()`
before any `calculate_signature` / `diff` / `apply_delta` call; when
the bytecount is zero no decrement event is published. -/
theorem move_file_decrement (w : MoveWorld) (ssz dsz : Nat) (src_hash dh : RangedHash)
    (hcopy : (copy_file_range w true
        ((ByteRanges.single 0 ssz).subtraction (ByteRanges.single 0 dsz))).1 = .ok ())
    (htrunc : w.truncateO = .ok ())
    (hsrc : (hash_file w.srcHashO ssz HASH_FILE_CHUNK).1 = .ok src_hash)
    (hdst : (hash_file w.dstHash1O ssz HASH_FILE_CHUNK).1 = .ok dh)
    (hfin : w.finishO = .ok ()) (hdel : w.deleteO = .ok ())
    (hc : (ByteRanges.isEmpty (src_hash.diff dh).2 && src_hash.is_complete ssz &&
        dh.is_complete ssz) = false)
    (hbc : ((ByteRanges.single 0 ssz).subtraction (src_hash.diff dh).1).bytecount ≠ 0) :
    ∃ pre tail,
      (move_file w true ssz dsz).2 =
        pre ++ Event.decrementE
          ((ByteRanges.single 0 ssz).subtraction (src_hash.diff dh).1).bytecount :: tail
      ∧ (∀ r, Event.calcSigE r ∉ pre)
      ∧ (∀ r, Event.diffE r ∉ pre)
      ∧ (∀ r, Event.applyDeltaE r ∉ pre) := by
  have hchk := check_hashes_spec w.dstHash1O w.finishO w.deleteO src_hash ssz dh hdst hfin hdel
  rw [if_neg (by rw [hc]; exact Bool.false_ne_true)] at hchk
  obtain ⟨tail0, htail⟩ :=
    move_file_rest_trace_shape w true ssz src_hash (src_hash.diff dh).1
  have hcondtrue : (true &&
      (((ByteRanges.single 0 ssz).subtraction (src_hash.diff dh).1).bytecount != 0)) = true := by
    simp [hbc]
  rw [hcondtrue, if_pos rfl] at htail
  have hnorsync : ∀ e, e ∈ (copy_file_range w true
      ((ByteRanges.single 0 ssz).subtraction (ByteRanges.single 0 dsz))).2 →
      ∀ r, e ≠ Event.calcSigE r ∧ e ≠ Event.diffE r ∧ e ≠ Event.applyDeltaE r := by
    intro e hmem r
    rcases mem_copy_file_range w true _ e hmem with h | h | ⟨r2, h⟩ | ⟨r2, h⟩ | ⟨n, h⟩ <;>
      subst h <;> exact ⟨by simp, by simp, by simp⟩
  by_cases hgt : dsz > ssz
  · refine ⟨(copy_file_range w true
        ((ByteRanges.single 0 ssz).subtraction (ByteRanges.single 0 dsz))).2 ++
        [Event.truncateE ssz] ++
        (hash_file w.srcHashO ssz HASH_FILE_CHUNK).2.map Event.srcHashE ++
        [Event.verifyingE] ++
        (hash_file w.dstHash1O ssz HASH_FILE_CHUNK).2.map Event.dstHashE, tail0, ?_, ?_, ?_, ?_⟩
    · conv =>
        lhs
        rw [move_file]
      simp only [hcopy, if_pos hgt, htrunc, hsrc, hchk, htail, List.append_assoc,
        List.singleton_append, List.cons_append, if_pos rfl, if_true, List.nil_append]
    · intro r hmem
      simp only [List.append_assoc, List.mem_append] at hmem
      rcases hmem with hmem | hmem
      · exact absurd rfl (hnorsync _ hmem r).1
      · simp at hmem
    · intro r hmem
      simp only [List.append_assoc, List.mem_append] at hmem
      rcases hmem with hmem | hmem
      · exact absurd rfl (hnorsync _ hmem r).2.1
      · simp at hmem
    · intro r hmem
      simp only [List.append_assoc, List.mem_append] at hmem
      rcases hmem with hmem | hmem
      · exact absurd rfl (hnorsync _ hmem r).2.2
      · simp at hmem
  · refine ⟨(copy_file_range w true
        ((ByteRanges.single 0 ssz).subtraction (ByteRanges.single 0 dsz))).2 ++
        (hash_file w.srcHashO ssz HASH_FILE_CHUNK).2.map Event.srcHashE ++
        [Event.verifyingE] ++
        (hash_file w.dstHash1O ssz HASH_FILE_CHUNK).2.map Event.dstHashE, tail0, ?_, ?_, ?_, ?_⟩
    · conv =>
        lhs
        rw [move_file]
      simp only [hcopy, if_neg hgt, hsrc, hchk, htail, List.append_assoc,
        List.singleton_append, List.cons_append, if_pos rfl, if_true, List.nil_append]
    · intro r hmem
      simp only [List.append_assoc, List.mem_append] at hmem
      rcases hmem with hmem | hmem
      · exact absurd rfl (hnorsync _ hmem r).1
      · simp at hmem
    · intro r hmem
      simp only [List.append_assoc, List.mem_append] at hmem
      rcases hmem with hmem | hmem
      · exact absurd rfl (hnorsync _ hmem r).2.1
      · simp at hmem
    · intro r hmem
      simp only [List.append_assoc, List.mem_append] at hmem
      rcases hmem with hmem | hmem
      · exact absurd rfl (hnorsync _ hmem r).2.2
      · simp at hmem

/-- Witness for the amended C5: a mismatching 1-byte file triggers a
decrement of 1 byte in the trace. -/
theorem move_file_decrement_witness :
    ∃ pre tail, (move_file mismatchWorld true 1 0).2 =
      pre ++ Event.decrementE 1 :: tail := by
  have hthm := move_file_decrement mismatchWorld 1 0 [(⟨0, 1⟩, 1)] [(⟨0, 1⟩, 2)]
    rfl rfl rfl rfl rfl rfl (by decide) (by decide)
  obtain ⟨pre, tail, heq, _⟩ := hthm
  exact ⟨pre, tail, heq⟩

/-- C6: in the rsync phase, per chunk: a `HashMismatch` from
`apply_delta` adds the chunk's range to the fallback set and
processing continues with the next chunk; any other semantic error —
and any transport error — aborts the job with that error; and on a
successful rsync phase, `move_file` re-copies the accumulated fallback
ranges in the copy-fallback phase. -/
theorem rsync_error_policy (w : MoveWorld) (hasTx : Bool) (r : ByteRange)
    (rest : List ByteRange) (fb : ByteRanges) (sig : Sig) (dh : Delta × Hash)
    (hsig : w.calcSigO r = .ok sig) (hdiff : w.diffO r sig = .ok dh) :
    (w.applyDeltaO r dh.1 dh.2 = .ok (.error .hashMismatch) →
      rsyncChunks w hasTx (r :: rest) fb =
        ((rsyncChunks w hasTx rest (fb.add r)).1,
          [Event.calcSigE r, Event.diffE r, Event.applyDeltaE r] ++
            (rsyncChunks w hasTx rest (fb.add r)).2.1,
          (rsyncChunks w hasTx rest (fb.add r)).2.2))
    ∧ (∀ e : RealStoreError, e ≠ .hashMismatch →
        w.applyDeltaO r dh.1 dh.2 = .ok (.error e) →
        rsyncChunks w hasTx (r :: rest) fb =
          (.error (.realize e),
            [Event.calcSigE r, Event.diffE r, Event.applyDeltaE r], fb))
    ∧ (∀ e : MoveFileError, w.applyDeltaO r dh.1 dh.2 = .error e →
        rsyncChunks w hasTx (r :: rest) fb =
          (.error e, [Event.calcSigE r, Event.diffE r, Event.applyDeltaE r], fb))
    ∧ (∀ (ssz : Nat) (src_hash : RangedHash) (correct : ByteRanges),
        (rsync_file_range w hasTx ((ByteRanges.single 0 ssz).subtraction correct)).1 =
          .ok () →
        ∃ pre post, (move_file_rest w hasTx ssz src_hash correct).2 =
          pre ++ (copy_file_range w hasTx
            (rsync_file_range w hasTx
              ((ByteRanges.single 0 ssz).subtraction correct)).2.2).2 ++ post) := by
  refine ⟨?_, ?_, ?_, ?_⟩
  · intro ha
    rw [rsyncChunks]
    simp only [hsig, hdiff, ha]
  · intro e hne ha
    cases e with
    | hashMismatch => exact absurd rfl hne
    | notFound => rw [rsyncChunks]; simp only [hsig, hdiff, ha]
    | unavailable => rw [rsyncChunks]; simp only [hsig, hdiff, ha]
    | isADirectory => rw [rsyncChunks]; simp only [hsig, hdiff, ha]
    | invalidRsyncSignature => rw [rsyncChunks]; simp only [hsig, hdiff, ha]
    | otherError code => rw [rsyncChunks]; simp only [hsig, hdiff, ha]
  · intro e ha
    rw [rsyncChunks]
    simp only [hsig, hdiff, ha]
  · intro ssz src_hash correct hok
    rw [move_file_rest]
    simp only [hok]
    cases h2 : (copy_file_range w hasTx
        (rsync_file_range w hasTx
          ((ByteRanges.single 0 ssz).subtraction correct)).2.2).1 with
    | error e =>
      refine ⟨(if hasTx &&
            ((ByteRanges.single 0 ssz).subtraction correct).bytecount != 0 then
            [Event.decrementE ((ByteRanges.single 0 ssz).subtraction correct).bytecount]
          else []) ++
          (rsync_file_range w hasTx ((ByteRanges.single 0 ssz).subtraction correct)).2.1,
          [], ?_⟩
      simp only [h2, List.append_assoc, List.append_nil]
    | ok v =>
      refine ⟨(if hasTx &&
            ((ByteRanges.single 0 ssz).subtraction correct).bytecount != 0 then
            [Event.decrementE ((ByteRanges.single 0 ssz).subtraction correct).bytecount]
          else []) ++
          (rsync_file_range w hasTx ((ByteRanges.single 0 ssz).subtraction correct)).2.1,
          (if hasTx then [Event.verifyingE] else []) ++
            (check_hashes_and_delete w.dstHash2O w.finish2O w.delete2O src_hash ssz).2, ?_⟩
      cases h3 : (check_hashes_and_delete w.dstHash2O w.finish2O w.delete2O
          src_hash ssz).1 with
      | error e => simp only [h2, h3, List.append_assoc]
      | ok chk =>
        cases chk with
        | matched => simp only [h2, h3, List.append_assoc]
        | mismatch pm => simp only [h2, h3, List.append_assoc]

/-- Witness for C6: with `apply_delta` answering `HashMismatch` on the
chunk at 0 and `NotFound` on the chunk at 5, the first chunk is added
to the fallback set and processing continues, while the second aborts
the job with the `NotFound` error. -/
theorem rsync_error_policy_witness :
    rsyncChunks applyDeltaFailWorld true [⟨0, 5⟩] [] =
      ((rsyncChunks applyDeltaFailWorld true [] (ByteRanges.add [] ⟨0, 5⟩)).1,
        [Event.calcSigE ⟨0, 5⟩, Event.diffE ⟨0, 5⟩, Event.applyDeltaE ⟨0, 5⟩] ++
          (rsyncChunks applyDeltaFailWorld true [] (ByteRanges.add [] ⟨0, 5⟩)).2.1,
        (rsyncChunks applyDeltaFailWorld true [] (ByteRanges.add [] ⟨0, 5⟩)).2.2)
    ∧ rsyncChunks applyDeltaFailWorld true [⟨5, 9⟩] [] =
      (.error (.realize .notFound),
        [Event.calcSigE ⟨5, 9⟩, Event.diffE ⟨5, 9⟩, Event.applyDeltaE ⟨5, 9⟩], []) :=
  ⟨(rsync_error_policy applyDeltaFailWorld true ⟨0, 5⟩ [] [] 0 (0, 1) rfl rfl).1 rfl,
    (rsync_error_policy applyDeltaFailWorld true ⟨5, 9⟩ [] [] 0 (0, 1) rfl rfl).2.1
      .notFound (by decide) rfl⟩

end Realize
